import Mathlib

/-!
Verification of the `llm-secrets` secret lifecycle manager.

The Python sources (`src/llm_secrets/secrets.py`, `src/llm_secrets/cli.py`)
are shallowly embedded below.  Python strings are `List Char` (for the byte
sequences handled by the codec and the masking engine) or `String` (for keys
and messages); Python dicts are association lists with unique keys in
insertion order; the filesystem state touched by an operation (the encrypted
store file, its temporary sibling and the recipient-configuration artifact)
is an explicit record; the external `sops` / `age-keygen` subprocesses are
oracles supplied as parameters, each invocation yielding either a missing
binary, a non-zero exit with captured stderr, or captured stdout.
-/

namespace LlmSecrets

/-! # Definitions -/


/-- A scalar value as produced by the YAML loader: string, number, boolean
or null.  `get_secret` applies Python `str` to whatever scalar is stored. -/
inductive YVal where
  | s (v : String)
  | i (n : Nat)
  | b (v : Bool)
  | null
deriving DecidableEq

/-- Python `str(...)` applied to a loaded YAML scalar. -/
def YVal.str : YVal → String
  | .s v => v
  | .i n => toString n
  | .b true => "True"
  | .b false => "False"
  | .null => "None"

/-- Python dict lookup: first (and, with unique keys, only) binding wins. -/
def lookupKey {α : Type} : List (String × α) → String → Option α
  | [], _ => none
  | (k', v) :: rest, k => if k' = k then some v else lookupKey rest k

/-- Python `d[k] = v`: update in place preserving insertion position,
or append a fresh binding at the end. -/
def setKey {α : Type} : List (String × α) → String → α → List (String × α)
  | [], k, v => [(k, v)]
  | (k', v') :: rest, k, v =>
      if k' = k then (k', v) :: rest else (k', v') :: setKey rest k v

/-- Python `del d[k]`: remove the binding for `k` (the first one; with
unique keys, the only one). -/
def delKey {α : Type} : List (String × α) → String → List (String × α)
  | [], _ => []
  | (k', v') :: rest, k => if k' = k then rest else (k', v') :: delKey rest k

/-- The keys of a dict, in insertion order. -/
def keysOf {α : Type} (m : List (String × α)) : List String := m.map Prod.fst

/-- The decrypted plaintext mapping of the secret store. -/
abbrev Store := List (String × YVal)

/-- Building a Python dict by assigning each pair in turn (as the YAML
loader does when constructing a mapping; duplicate keys overwrite). -/
def buildDict {α : Type} (ps : List (String × α)) : List (String × α) :=
  ps.foldl (fun d p => setKey d p.1 p.2) []

/-- Escape one character for a double-quoted scalar. -/
def escapeChar (c : Char) : List Char :=
  if c = '\\' then ['\\', '\\']
  else if c = '"' then ['\\', '"']
  else if c = '\n' then ['\\', 'n']
  else [c]

/-- Escape a whole string for a double-quoted scalar. -/
def escape : List Char → List Char
  | [] => []
  | c :: cs => escapeChar c ++ escape cs

/-- Undo one escape code. -/
def unescChar (c : Char) : Option Char :=
  if c = '\\' then some '\\'
  else if c = '"' then some '"'
  else if c = 'n' then some '\n'
  else none

/-- Parse the body of a double-quoted scalar up to its closing quote;
returns the unescaped content and the remaining input. -/
def parseQuoted : List Char → Option (List Char × List Char)
  | [] => none
  | c :: cs =>
    if c = '"' then some ([], cs)
    else if c = '\\' then
      match cs with
      | [] => none
      | e :: cs' =>
        match unescChar e with
        | none => none
        | some d =>
          match parseQuoted cs' with
          | none => none
          | some (s, r) => some (d :: s, r)
    else
      match parseQuoted cs with
      | none => none
      | some (s, r) => some (c :: s, r)

/-- One decimal digit as a character. -/
def digitChar (n : Nat) : Char :=
  match n with
  | 0 => '0' | 1 => '1' | 2 => '2' | 3 => '3' | 4 => '4'
  | 5 => '5' | 6 => '6' | 7 => '7' | 8 => '8' | _ => '9'

/-- The numeric value of a decimal digit character (10 for non-digits). -/
def digitVal (c : Char) : Nat :=
  match c with
  | '0' => 0 | '1' => 1 | '2' => 2 | '3' => 3 | '4' => 4
  | '5' => 5 | '6' => 6 | '7' => 7 | '8' => 8 | '9' => 9
  | _ => 10

/-- Is this character a decimal digit? -/
def isDigitChar (c : Char) : Bool := digitVal c < 10

/-- Digits of a natural number, most significant first; `fuel` bounds the
recursion depth and any `fuel > n` is enough. -/
def natToCharsAux : Nat → Nat → List Char
  | 0, _ => []
  | fuel + 1, n =>
    if n < 10 then [digitChar n]
    else natToCharsAux fuel (n / 10) ++ [digitChar (n % 10)]

/-- Python `str(n)` for a natural number. -/
def natToChars (n : Nat) : List Char := natToCharsAux (n + 1) n

/-- Read back a decimal numeral. -/
def charsToNat (cs : List Char) : Nat := cs.foldl (fun a c => a * 10 + digitVal c) 0

/-- Load a bare (unquoted) scalar: boolean / null / number / plain string. -/
def bareToYVal (cs : List Char) : YVal :=
  if cs = [] then .null
  else if cs = "true".data then .b true
  else if cs = "false".data then .b false
  else if cs = "null".data then .null
  else if cs.all isDigitChar then .i (charsToNat cs)
  else .s (String.mk cs)

/-- Dump one scalar: strings double-quoted, other scalars bare. -/
def serializeVal : YVal → List Char
  | .s v => '"' :: (escape v.data ++ '"' :: [])
  | .i n => natToChars n
  | .b true => "true".data
  | .b false => "false".data
  | .null => "null".data

/-- Dump one `key: value` line. -/
def serializeEntry (k : String) (v : YVal) : List Char :=
  '"' :: (escape k.data ++ '"' :: ':' :: ' ' :: serializeVal v)

/-- Load the value part of a line. -/
def parseValChars (cs : List Char) : Option YVal :=
  match cs with
  | [] => some (bareToYVal [])
  | c :: rest =>
    if c = '"' then
      match parseQuoted rest with
      | some (v, []) => some (.s (String.mk v))
      | _ => none
    else some (bareToYVal cs)

/-- Expect the `: ` separator, then the value. -/
def parseAfterKey (cs : List Char) : Option YVal :=
  match cs with
  | c₁ :: c₂ :: rest => if c₁ = ':' ∧ c₂ = ' ' then parseValChars rest else none
  | _ => none

/-- Load one `key: value` line. -/
def parseLine (cs : List Char) : Option (String × YVal) :=
  match cs with
  | c :: rest =>
    if c = '"' then
      match parseQuoted rest with
      | none => none
      | some (k, rest₂) =>
        match parseAfterKey rest₂ with
        | none => none
        | some v => some (String.mk k, v)
    else none
  | [] => none

/-- Join lines with a newline separator. -/
def joinLines : List (List Char) → List Char
  | [] => []
  | [l] => l
  | l :: l₂ :: ls => l ++ '\n' :: joinLines (l₂ :: ls)

/-- Split on newline separators (inverse of `joinLines` for newline-free
lines). -/
def splitNl : List Char → List (List Char)
  | [] => [[]]
  | c :: cs =>
    match splitNl cs with
    | [] => [[]]
    | l :: ls => if c = '\n' then [] :: l :: ls else (c :: l) :: ls

/-- Load every line, failing if any line is malformed. -/
def parseLinesAll : List (List Char) → Option (List (String × YVal))
  | [] => some []
  | l :: ls =>
    match parseLine l with
    | none => none
    | some p =>
      match parseLinesAll ls with
      | none => none
      | some ps => some (p :: ps)

/-- Python `yaml.dump(m, default_flow_style=False)`: one `key: value` line per
binding. -/
def serialize (m : Store) : List Char :=
  joinLines (m.map fun kv => serializeEntry kv.1 kv.2)

/-- Python `yaml.safe_load`: `none` is a parse error (a raised `YAMLError`);
`some none` is the `None` returned for empty input; otherwise the loaded
mapping (later duplicate keys overwrite earlier ones, as in a dict build). -/
def yaml_safe_load (cs : List Char) : Option (Option Store) :=
  if cs = [] then some none
  else
    match parseLinesAll (splitNl cs) with
    | none => none
    | some ps => some (some (buildDict ps))

/-- The composite loader used by `decrypt_secrets`:
`yaml.safe_load(result.stdout) or {}` (secrets.py line 87). -/
def deserialize (cs : List Char) : Option Store :=
  (yaml_safe_load cs).map fun o => o.getD []

inductive PyErr where
  | secretsNotFound (msg : String)
  | keyNotFound (msg : String)
  | sops (msg : String)
  | secrets (msg : String)
  | fileNotFound
  | yamlErr
deriving DecidableEq

/-- Is the exception an instance of `SecretsError` (the only class the CLI
boundary catches)?  `FileNotFoundError` and `yaml.YAMLError` are not. -/
def isSecretsError : PyErr → Bool
  | .secretsNotFound _ => true
  | .keyNotFound _ => true
  | .sops _ => true
  | .secrets _ => true
  | .fileNotFound => false
  | .yamlErr => false

/-- One invocation of an external binary: the binary may be absent
(`FileNotFoundError`), exit non-zero with captured stderr, or succeed with
captured output. -/
inductive ToolOutcome (α : Type) where
  | missing : ToolOutcome α
  | failed (stderr : String) : ToolOutcome α
  | ok (out : α) : ToolOutcome α
deriving DecidableEq

/-- The behaviour of the external `sops` binary: `decrypt` is
`sops -d <file>` on the file's bytes, `encrypt` is `sops -e -i <file>`
mapping the file's plaintext bytes to its encrypted bytes. -/
structure Tool where
  decrypt : List Char → ToolOutcome (List Char)
  encrypt : List Char → ToolOutcome (List Char)

/-- A well-behaved tool: encryption always succeeds and decryption inverts
it. -/
def Tool.Good (t : Tool) : Prop :=
  (∀ p, ∃ e, t.encrypt p = .ok e) ∧
  (∀ p e, t.encrypt p = .ok e → t.decrypt e = .ok p)

/-- The filesystem state an operation can touch: the encrypted store file
at its canonical path, the temporary sibling (`.yaml.tmp`), and the
`.sops.yaml` recipient configuration in the parent directory.  `none`
means the file is absent. -/
structure FS where
  store : Option (List Char)
  temp : Option (List Char)
  sopsConfig : Option (List Char)
deriving DecidableEq

/-- Function `decrypt_secrets` (secrets.py lines 71-87): existence check, then
`sops -d`, then `yaml.safe_load(...) or {}`. -/
def decrypt_secrets (tool : Tool) (pathStr : String) (fs : FS) : Except PyErr Store :=
  match fs.store with
  | none => .error (.secretsNotFound ("Secrets file not found: " ++ pathStr))
  | some enc =>
    match tool.decrypt enc with
    | .missing => .error .fileNotFound
    | .failed stderr => .error (.sops ("Failed to decrypt: " ++ stderr))
    | .ok stdout =>
      match yaml_safe_load stdout with
      | none => .error .yamlErr
      | some o => .ok (o.getD [])

/-- Function `list_keys` (lines 90-93): `sorted(secrets.keys())`. -/
def list_keys (tool : Tool) (pathStr : String) (fs : FS) : Except PyErr (List String) :=
  match decrypt_secrets tool pathStr fs with
  | .error e => .error e
  | .ok secrets => .ok (List.insertionSort (· ≤ ·) (keysOf secrets))

/-- Function `get_secret` (lines 96-103): lookup, then Python `str(...)`. -/
def get_secret (tool : Tool) (pathStr : String) (key : String) (fs : FS) :
    Except PyErr String :=
  match decrypt_secrets tool pathStr fs with
  | .error e => .error e
  | .ok secrets =>
    match lookupKey secrets key with
    | none => .error (.keyNotFound ("Key not found: " ++ key))
    | some v => .ok v.str

/-- The shared tail of `set_secret` / `delete_secret` (lines 132-154 and
172-190): write the serialized mapping to the temporary sibling, encrypt it
in place with `sops -e -i`, rename onto the canonical path, and in the
`finally` block unlink the temporary file if it still exists. -/
def writeStore (tool : Tool) (m : Store) (fs : FS) : FS × Except PyErr Unit :=
  let fs₁ : FS := { fs with temp := some (serialize m) }
  match tool.encrypt (serialize m) with
  | .missing => ({ fs₁ with temp := none }, .error .fileNotFound)
  | .failed st => ({ fs₁ with temp := none }, .error (.sops ("Failed to encrypt: " ++ st)))
  | .ok enc => ({ fs₁ with store := some enc, temp := none }, .ok ())

/-- Function `set_secret` (lines 116-154). -/
def set_secret (tool : Tool) (pathStr : String) (key value : String) (fs : FS) :
    FS × Except PyErr Unit :=
  match fs.store with
  | some _ =>
    match decrypt_secrets tool pathStr fs with
    | .error e => (fs, .error e)
    | .ok secrets => writeStore tool (setKey secrets key (.s value)) fs
  | none => writeStore tool (setKey [] key (.s value)) fs

/-- Function `delete_secret` (lines 157-190). -/
def delete_secret (tool : Tool) (pathStr : String) (key : String) (fs : FS) :
    FS × Except PyErr Unit :=
  match fs.store with
  | none => (fs, .error (.secretsNotFound ("Secrets file not found: " ++ pathStr)))
  | some _ =>
    match decrypt_secrets tool pathStr fs with
    | .error e => (fs, .error e)
    | .ok secrets =>
      match lookupKey secrets key with
      | none => (fs, .error (.keyNotFound ("Key not found: " ++ key)))
      | some _ => writeStore tool (delKey secrets key) fs

/-- Python truthiness of the `age_recipient` variable (`if not age_recipient:`):
`None` and the empty string are falsy. -/
def pyTruthy : Option String → Bool
  | none => false
  | some s => !(s == "")

/-- The message of the no-recipient `SecretsError` (lines 216-220). -/
def noRecipientMsg : String :=
  "No age recipient found. Either:\n" ++
  "  1. Create age key: age-keygen -o ~/.config/sops/age/keys.txt\n" ++
  "  2. Or provide --age-recipient"

/-- The initial mapping written by `init_secrets_file` (line 223). -/
def initialContent : Store := [("_example", .s "replace-me")]

/-- The `.sops.yaml` written at init time (line 234). -/
def sopsConfigText (recipient : String) : List Char :=
  ("creation_rules:\n  - age: " ++ recipient ++ "\n").data

/-- The recipient-derivation step of `init_secrets_file` (lines 204-213):
if no truthy recipient was supplied and the age key file exists, run
`age-keygen -y`; a zero exit sets the recipient to stripped stdout, a
non-zero exit leaves it unset, a missing binary raises
`FileNotFoundError`. -/
def deriveStep (age_recipient : Option String) (ageKeyFileExists : Bool)
    (ageKeygen : ToolOutcome String) : Except PyErr (Option String) :=
  if pyTruthy age_recipient then .ok age_recipient
  else if ageKeyFileExists then
    match ageKeygen with
    | .missing => .error .fileNotFound
    | .failed _ => .ok age_recipient
    | .ok out => .ok (some out.trim)
  else .ok age_recipient

/-- Function `init_secrets_file` (lines 193-251). -/
def init_secrets_file (tool : Tool) (ageKeyFileExists : Bool)
    (ageKeygen : ToolOutcome String) (pathStr : String)
    (age_recipient : Option String) (fs : FS) : FS × Except PyErr Unit :=
  match fs.store with
  | some _ => (fs, .error (.secrets ("Secrets file already exists: " ++ pathStr)))
  | none =>
    match deriveStep age_recipient ageKeyFileExists ageKeygen with
    | .error e => (fs, .error e)
    | .ok ar =>
      if pyTruthy ar then
        let fs₁ : FS := { fs with temp := some (serialize initialContent) }
        let fs₂ : FS :=
          if fs₁.sopsConfig.isSome then fs₁
          else { fs₁ with sopsConfig := some (sopsConfigText (ar.getD "")) }
        match tool.encrypt (serialize initialContent) with
        | .missing => ({ fs₂ with temp := none }, .error .fileNotFound)
        | .failed st =>
          ({ fs₂ with temp := none }, .error (.sops ("Failed to encrypt: " ++ st)))
        | .ok enc => ({ fs₂ with store := some enc, temp := none }, .ok ())
      else (fs, .error (.secrets noRecipientMsg))

/-- Python `inject.split("=", 1)` after the `"=" not in inject` check:
`none` when there is no separator, otherwise the parts around the first
`'='`. -/
def splitEqChars : List Char → Option (List Char × List Char)
  | [] => none
  | c :: cs =>
    if c = '=' then some ([], cs)
    else
      match splitEqChars cs with
      | none => none
      | some (a, b) => some (c :: a, b)

/-- Splitting an `ENV_VAR=secret_key` binding. -/
def splitEq (s : String) : Option (String × String) :=
  match splitEqChars s.data with
  | none => none
  | some (a, b) => some (String.mk a, String.mk b)

/-- How the inject loop ends: a fully built environment, an early
`return 1` on a malformed binding, or an exception from `get_secret`. -/
inductive InjectOut where
  | done (env : List (String × String))
  | badFormat
  | raised (e : PyErr)
deriving DecidableEq

/-- The `for inject in args.inject:` loop (cli.py lines 201-210),
threading the copied environment. -/
def injectLoop (tool : Tool) (pathStr : String) (fs : FS) :
    List String → List (String × String) → InjectOut
  | [], env => .done env
  | b :: bs, env =>
    match splitEq b with
    | none => .badFormat
    | some p =>
      match get_secret tool pathStr p.2 fs with
      | .error e => .raised e
      | .ok v => injectLoop tool pathStr fs bs (setKey env p.1 v)

/-- How `cmd_exec` returns: a normal return value, or an uncaught
exception unwinding out of it (only `SecretsError` is caught). -/
inductive ExecResult where
  | exited (code : Int)
  | crashed (e : PyErr)
deriving DecidableEq

/-- The observable outcome of `cmd_exec`: its result, the command and
environment passed to `subprocess.run` (if reached), and `os.environ`
after the call. -/
structure ExecOutcome where
  result : ExecResult
  spawned : Option (List String × List (String × String))
  parentEnv : List (String × String)
deriving DecidableEq

/-- Dropping the leading `--` separator (cli.py lines 190-192). -/
def stripSep (cmd : List String) : List String :=
  match cmd with
  | c :: rest => if c = "--" then rest else cmd
  | [] => []

/-- Function `cmd_exec` (cli.py lines 178-218).  `runner` is the exit code of
`subprocess.run(command, env=env, shell=False)`. -/
def cmd_exec (tool : Tool) (pathStr : String) (fs : FS)
    (runner : List String → List (String × String) → Int)
    (parentEnv : List (String × String))
    (inject : List String) (exec_command : List String) : ExecOutcome :=
  let command := stripSep exec_command
  if command = [] then ⟨.exited 1, none, parentEnv⟩
  else
    match injectLoop tool pathStr fs inject parentEnv with
    | .badFormat => ⟨.exited 1, none, parentEnv⟩
    | .raised e =>
      if isSecretsError e then ⟨.exited 1, none, parentEnv⟩
      else ⟨.crashed e, none, parentEnv⟩
    | .done env => ⟨.exited (runner command env), some (command, env), parentEnv⟩

/-- Python `value[-n:]` on a string of characters: for `n = 0` the slice
`[-0:]` is `[0:]`, i.e. the whole string; otherwise the last `n`
characters (the whole string when `n ≥ len`). -/
def pyLastSlice (l : List Char) (n : Nat) : List Char :=
  if n = 0 then l else l.drop (l.length - n)

/-- Function `mask_value(value, peek_chars)` from secrets.py: empty sentinel, full
masking of short values, otherwise first/last peek plus a middle of at most
8 asterisks. -/
def mask_value (value : List Char) (peek_chars : Nat) : List Char :=
  if value.length = 0 then "(empty)".data
  else if value.length ≤ peek_chars * 2 then List.replicate value.length '*'
  else
    let first := value.take peek_chars
    let last := pyLastSlice value peek_chars
    let hidden_len := value.length - peek_chars * 2
    first ++ List.replicate (min hidden_len 8) '*' ++ last

/-- The atomicity contract of one mutating call on filesystem `fs`
returning `out`: no temporary sibling remains, a failed call leaves the
store file exactly as it was (or still absent), and a successful call has
replaced it wholesale with an output of the encryption tool (moved into
place by the single rename of the temporary sibling). -/
def AtomicOk (tool : Tool) (fs : FS) (out : FS × Except PyErr Unit) : Prop :=
  out.1.temp = none ∧
  ((∃ e, out.2 = .error e) → out.1.store = fs.store) ∧
  (out.2 = .ok () → ∃ enc p, tool.encrypt p = .ok enc ∧ out.1.store = some enc)

/-- The in-memory mapping a mutating operation starts from: the empty
mapping when the store file is absent, otherwise whatever
`decrypt_secrets` returns. -/
def ReadState (tool : Tool) (pathStr : String) (fs : FS) (m : Store) : Prop :=
  (fs.store = none ∧ m = []) ∨
  (fs.store.isSome = true ∧ decrypt_secrets tool pathStr fs = .ok m)

/-- A transparent tool: encryption is the identity, decryption accepts
anything. -/
def idTool : Tool := ⟨fun c => .ok c, fun c => .ok c⟩

/-- A tool whose binaries are missing. -/
def missingTool : Tool := ⟨fun _ => .missing, fun _ => .missing⟩

/-- A tool that always exits non-zero. -/
def failTool : Tool := ⟨fun _ => .failed "boom", fun _ => .failed "boom"⟩

/-- An empty filesystem: no store, no temp, no config. -/
def fsEmpty : FS := ⟨none, none, none⟩

/-- A filesystem whose store holds (under `idTool`) the mapping
`{"k": "v", "x": "y"}`. -/
def fsKV : FS := ⟨some (serialize [("k", .s "v"), ("x", .s "y")]), none, none⟩

/-- A filesystem whose store holds (under `idTool`) the single non-string
scalar binding `{"k": 42}`. -/
def fsNum : FS := ⟨some (serialize [("k", .i 42)]), none, none⟩

/-- A binding that makes the inject loop stop before the command runs:
either it lacks the `=` separator, or its key lookup raises. -/
def BadBinding (tool : Tool) (pathStr : String) (fs : FS) (b : String) : Prop :=
  splitEq b = none ∨
  ∃ ev sk, splitEq b = some (ev, sk) ∧ ∃ e, get_secret tool pathStr sk fs = .error e

/-! # Theorems -/

@[simp] theorem keysOf_nil {α : Type} : keysOf ([] : List (String × α)) = [] := rfl

@[simp] theorem keysOf_cons {α : Type} (k : String) (v : α) (rest : List (String × α)) :
    keysOf ((k, v) :: rest) = k :: keysOf rest := rfl

theorem lookupKey_eq_none_iff {α : Type} (m : List (String × α)) (k : String) :
    lookupKey m k = none ↔ k ∉ keysOf m := by
  induction m with
  | nil => simp [lookupKey]
  | cons kv rest ih =>
    obtain ⟨k', v⟩ := kv
    rw [keysOf_cons, List.mem_cons]
    by_cases h : k' = k
    · subst h
      simp [lookupKey]
    · rw [lookupKey, if_neg h, ih]
      constructor
      · intro hk hmem
        rcases hmem with h1 | h2
        · exact h h1.symm
        · exact hk h2
      · intro hk hmem
        exact hk (Or.inr hmem)

theorem lookupKey_setKey_self {α : Type} (m : List (String × α)) (k : String) (v : α) :
    lookupKey (setKey m k v) k = some v := by
  induction m with
  | nil => simp [setKey, lookupKey]
  | cons kv rest ih =>
    obtain ⟨k', v'⟩ := kv
    by_cases h : k' = k
    · rw [setKey, if_pos h, lookupKey, if_pos h]
    · rw [setKey, if_neg h, lookupKey, if_neg h]
      exact ih

theorem lookupKey_setKey_other {α : Type} (m : List (String × α)) (k k' : String) (v : α)
    (h : k' ≠ k) : lookupKey (setKey m k v) k' = lookupKey m k' := by
  induction m with
  | nil =>
    rw [setKey, lookupKey, lookupKey, if_neg (Ne.symm h), lookupKey]
  | cons kv rest ih =>
    obtain ⟨k₀, v₀⟩ := kv
    by_cases h₀ : k₀ = k
    · rw [setKey, if_pos h₀, lookupKey, lookupKey]
      subst h₀
      rw [if_neg (Ne.symm h), if_neg (Ne.symm h)]
    · rw [setKey, if_neg h₀, lookupKey, lookupKey]
      by_cases h₁ : k₀ = k'
      · rw [if_pos h₁, if_pos h₁]
      · rw [if_neg h₁, if_neg h₁]
        exact ih

theorem keysOf_setKey {α : Type} (m : List (String × α)) (k : String) (v : α) :
    keysOf (setKey m k v) =
      if k ∈ keysOf m then keysOf m else keysOf m ++ [k] := by
  induction m with
  | nil => simp [setKey]
  | cons kv rest ih =>
    obtain ⟨k', v'⟩ := kv
    by_cases h : k' = k
    · subst h
      simp [setKey]
    · have hne : ¬ k = k' := fun h' => h h'.symm
      rw [setKey, if_neg h, keysOf_cons, keysOf_cons, ih]
      by_cases hmem : k ∈ keysOf rest
      · rw [if_pos hmem, if_pos (List.mem_cons.mpr (Or.inr hmem))]
      · rw [if_neg hmem, if_neg (by
          intro hc
          rcases List.mem_cons.mp hc with h1 | h2
          · exact hne h1
          · exact hmem h2)]
        rfl

theorem nodup_keysOf_setKey {α : Type} (m : List (String × α)) (k : String) (v : α)
    (h : (keysOf m).Nodup) : (keysOf (setKey m k v)).Nodup := by
  rw [keysOf_setKey]
  by_cases hmem : k ∈ keysOf m
  · simpa [hmem] using h
  · simp only [hmem, if_false]
    simpa [List.nodup_append] using ⟨h, fun h' => hmem h'⟩

theorem keysOf_delKey {α : Type} (m : List (String × α)) (k : String) :
    keysOf (delKey m k) = (keysOf m).erase k := by
  induction m with
  | nil => simp [delKey]
  | cons kv rest ih =>
    obtain ⟨k', v'⟩ := kv
    by_cases h : k' = k
    · subst h
      simp [delKey, List.erase_cons]
    · rw [delKey, if_neg h, keysOf_cons, keysOf_cons, List.erase_cons, ih,
        if_neg (by simp [h])]

theorem lookupKey_delKey_self {α : Type} (m : List (String × α)) (k : String)
    (h : (keysOf m).Nodup) : lookupKey (delKey m k) k = none := by
  induction m with
  | nil => simp [delKey, lookupKey]
  | cons kv rest ih =>
    obtain ⟨k', v'⟩ := kv
    rw [keysOf_cons, List.nodup_cons] at h
    by_cases hk : k' = k
    · subst hk
      rw [delKey, if_pos rfl, lookupKey_eq_none_iff]
      exact h.1
    · rw [delKey, if_neg hk, lookupKey, if_neg hk]
      exact ih h.2

theorem lookupKey_delKey_other {α : Type} (m : List (String × α)) (k k' : String)
    (h : k' ≠ k) : lookupKey (delKey m k) k' = lookupKey m k' := by
  induction m with
  | nil => simp [delKey]
  | cons kv rest ih =>
    obtain ⟨k₀, v₀⟩ := kv
    by_cases h₀ : k₀ = k
    · subst h₀
      rw [delKey, if_pos rfl, lookupKey, if_neg (fun h' : k₀ = k' => h h'.symm)]
    · rw [delKey, if_neg h₀, lookupKey, lookupKey]
      by_cases h₁ : k₀ = k'
      · rw [if_pos h₁, if_pos h₁]
      · rw [if_neg h₁, if_neg h₁]
        exact ih

theorem nodup_keysOf_delKey {α : Type} (m : List (String × α)) (k : String)
    (h : (keysOf m).Nodup) : (keysOf (delKey m k)).Nodup := by
  rw [keysOf_delKey]
  exact h.erase k

theorem lookupKey_append {α : Type} (m₁ m₂ : List (String × α)) (k : String) :
    lookupKey (m₁ ++ m₂) k =
      match lookupKey m₁ k with
      | some v => some v
      | none => lookupKey m₂ k := by
  induction m₁ with
  | nil => simp [lookupKey]
  | cons kv rest ih =>
    obtain ⟨k', v⟩ := kv
    by_cases h : k' = k
    · simp [lookupKey, if_pos h]
    · simp only [List.cons_append, lookupKey, if_neg h]
      exact ih

theorem setKey_of_lookup_none {α : Type} (m : List (String × α)) (k : String) (v : α)
    (h : lookupKey m k = none) : setKey m k v = m ++ [(k, v)] := by
  induction m with
  | nil => rfl
  | cons kv rest ih =>
    obtain ⟨k', v'⟩ := kv
    rw [lookupKey] at h
    by_cases hk : k' = k
    · rw [if_pos hk] at h
      exact absurd h (by simp)
    · rw [if_neg hk] at h
      rw [setKey, if_neg hk, ih h]
      rfl

theorem foldl_setKey_append {α : Type} (ps acc : List (String × α))
    (hfresh : ∀ p ∈ ps, lookupKey acc p.1 = none)
    (hnd : (keysOf ps).Nodup) :
    ps.foldl (fun d p => setKey d p.1 p.2) acc = acc ++ ps := by
  induction ps generalizing acc with
  | nil => simp
  | cons p rest ih =>
    obtain ⟨k, v⟩ := p
    rw [keysOf_cons, List.nodup_cons] at hnd
    have h₀ : lookupKey acc k = none := hfresh (k, v) (List.mem_cons_self _ _)
    rw [List.foldl_cons]
    have hstep : setKey acc k v = acc ++ [(k, v)] := setKey_of_lookup_none acc k v h₀
    rw [hstep, ih (acc ++ [(k, v)])]
    · simp
    · intro q hq
      rw [lookupKey_append]
      rw [hfresh q (List.mem_cons_of_mem _ hq)]
      have hne : ¬ k = q.1 := by
        intro hc
        exact hnd.1 (hc ▸ List.mem_map_of_mem Prod.fst hq)
      simp [lookupKey, hne]
    · exact hnd.2

theorem buildDict_eq_self {α : Type} (ps : List (String × α))
    (hnd : (keysOf ps).Nodup) : buildDict ps = ps := by
  have := foldl_setKey_append ps [] (fun p _ => rfl) hnd
  simpa [buildDict] using this

theorem nodup_keysOf_buildDict {α : Type} (ps : List (String × α)) :
    (keysOf (buildDict ps)).Nodup := by
  have haux : ∀ (qs acc : List (String × α)), (keysOf acc).Nodup →
      (keysOf (qs.foldl (fun d p => setKey d p.1 p.2) acc)).Nodup := by
    intro qs
    induction qs with
    | nil => intro acc h; simpa using h
    | cons q rest ih =>
      intro acc h
      rw [List.foldl_cons]
      exact ih _ (nodup_keysOf_setKey acc q.1 q.2 h)
  exact haux ps [] (by simp)

theorem parseQuoted_escape (s rest : List Char) :
    parseQuoted (escape s ++ '"' :: rest) = some (s, rest) := by
  induction s with
  | nil =>
    rw [escape, List.nil_append, parseQuoted.eq_def]
    simp
  | cons c cs ih =>
    by_cases h₁ : c = '\\'
    · subst h₁
      have he : escape ('\\' :: cs) ++ '"' :: rest =
          '\\' :: '\\' :: (escape cs ++ '"' :: rest) := by
        simp [escape, escapeChar]
      rw [he, parseQuoted.eq_def]
      simp [unescChar, ih]
    · by_cases h₂ : c = '"'
      · subst h₂
        have he : escape ('"' :: cs) ++ '"' :: rest =
            '\\' :: '"' :: (escape cs ++ '"' :: rest) := by
          simp [escape, escapeChar]
        rw [he, parseQuoted.eq_def]
        simp [unescChar, ih]
      · by_cases h₃ : c = '\n'
        · subst h₃
          have he : escape ('\n' :: cs) ++ '"' :: rest =
              '\\' :: 'n' :: (escape cs ++ '"' :: rest) := by
            simp [escape, escapeChar]
          rw [he, parseQuoted.eq_def]
          simp [unescChar, ih]
        · have he : escape (c :: cs) ++ '"' :: rest =
              c :: (escape cs ++ '"' :: rest) := by
            simp [escape, escapeChar, h₁, h₂, h₃]
          rw [he, parseQuoted.eq_def]
          simp [h₁, h₂, ih]

theorem newline_not_mem_escape (s : List Char) : '\n' ∉ escape s := by
  induction s with
  | nil => simp [escape]
  | cons c cs ih =>
    rw [escape]
    intro hmem
    rcases List.mem_append.mp hmem with h | h
    · revert h
      unfold escapeChar
      by_cases h₁ : c = '\\'
      · simp [h₁]
      · by_cases h₂ : c = '"'
        · simp [h₁, h₂]
        · by_cases h₃ : c = '\n'
          · simp [h₁, h₂, h₃]
          · simp [h₁, h₂, h₃]
            intro hc
            exact h₃ hc.symm
    · exact ih h

theorem digitVal_digitChar (n : Nat) (h : n < 10) : digitVal (digitChar n) = n := by
  interval_cases n <;> rfl

theorem isDigitChar_digitChar (n : Nat) (h : n < 10) : isDigitChar (digitChar n) = true := by
  interval_cases n <;> rfl

theorem charsToNat_append_digit (cs : List Char) (c : Char) :
    charsToNat (cs ++ [c]) = charsToNat cs * 10 + digitVal c := by
  simp [charsToNat, List.foldl_append]

theorem charsToNat_natToCharsAux (fuel n : Nat) (h : n < fuel) :
    charsToNat (natToCharsAux fuel n) = n := by
  induction fuel generalizing n with
  | zero => exact absurd h (Nat.not_lt_zero n)
  | succ fuel ih =>
    rw [natToCharsAux]
    by_cases h10 : n < 10
    · rw [if_pos h10]
      simp [charsToNat, digitVal_digitChar n h10]
    · rw [if_neg h10]
      rw [charsToNat_append_digit]
      have hlt : n / 10 < fuel := by
        have h1 : n / 10 < n := Nat.div_lt_self (by omega) (by omega)
        omega
      rw [ih (n / 10) hlt, digitVal_digitChar (n % 10) (Nat.mod_lt n (by omega))]
      omega

theorem charsToNat_natToChars (n : Nat) : charsToNat (natToChars n) = n :=
  charsToNat_natToCharsAux (n + 1) n (Nat.lt_succ_self n)

theorem natToCharsAux_all_digit (fuel : Nat) :
    ∀ n, ∀ c ∈ natToCharsAux fuel n, isDigitChar c = true := by
  induction fuel with
  | zero =>
    intro n c hc
    simp [natToCharsAux] at hc
  | succ fuel ih =>
    intro n c hc
    rw [natToCharsAux] at hc
    by_cases h10 : n < 10
    · rw [if_pos h10] at hc
      have hcc := List.mem_singleton.mp hc
      subst hcc
      exact isDigitChar_digitChar n h10
    · rw [if_neg h10] at hc
      rcases List.mem_append.mp hc with h | h
      · exact ih (n / 10) c h
      · have hcc := List.mem_singleton.mp h
        subst hcc
        exact isDigitChar_digitChar (n % 10) (Nat.mod_lt n (by omega))

theorem natToChars_all_digit (n : Nat) : ∀ c ∈ natToChars n, isDigitChar c = true :=
  natToCharsAux_all_digit (n + 1) n

theorem natToCharsAux_ne_nil (fuel n : Nat) (h : 0 < fuel) : natToCharsAux fuel n ≠ [] := by
  cases fuel with
  | zero => exact absurd h (by omega)
  | succ fuel =>
    rw [natToCharsAux]
    by_cases h10 : n < 10 <;> simp [h10]

theorem natToChars_ne_nil (n : Nat) : natToChars n ≠ [] :=
  natToCharsAux_ne_nil (n + 1) n (Nat.succ_pos n)

theorem mk_data (s : String) : String.mk s.data = s := rfl

theorem bareToYVal_natToChars (n : Nat) : bareToYVal (natToChars n) = .i n := by
  have hne : natToChars n ≠ [] := natToChars_ne_nil n
  have hdig : ∀ c ∈ natToChars n, isDigitChar c = true := natToChars_all_digit n
  have hne_lit : ∀ (cs₀ : List Char) (c : Char), c ∈ cs₀ → isDigitChar c = false →
      natToChars n ≠ cs₀ := by
    intro cs₀ c hc hcf he
    have hd := hdig c (he ▸ hc)
    rw [hd] at hcf
    exact absurd hcf (by decide)
  rw [bareToYVal, if_neg hne,
    if_neg (hne_lit "true".data 't' (by decide) (by decide)),
    if_neg (hne_lit "false".data 'f' (by decide) (by decide)),
    if_neg (hne_lit "null".data 'u' (by decide) (by decide)),
    if_pos (List.all_eq_true.mpr hdig), charsToNat_natToChars]

theorem parseValChars_serializeVal (v : YVal) : parseValChars (serializeVal v) = some v := by
  cases v with
  | s str =>
    rw [show serializeVal (.s str) = '"' :: (escape str.data ++ '"' :: []) from rfl,
      parseValChars.eq_def]
    simp [parseQuoted_escape, mk_data]
  | i n =>
    obtain ⟨c, cs, hc⟩ := List.exists_cons_of_ne_nil (natToChars_ne_nil n)
    have hdig : isDigitChar c = true :=
      natToChars_all_digit n c (by rw [hc]; exact List.mem_cons_self _ _)
    have hcq : ¬ c = '"' := by
      intro h
      rw [h] at hdig
      exact absurd hdig (by decide)
    rw [show serializeVal (.i n) = natToChars n from rfl, hc, parseValChars.eq_def]
    simp only [if_neg hcq]
    rw [← hc, bareToYVal_natToChars]
  | b bv => cases bv <;> decide
  | null => decide

theorem parseAfterKey_sep (rest : List Char) :
    parseAfterKey (':' :: ' ' :: rest) = parseValChars rest := by
  rw [parseAfterKey.eq_def]
  simp

theorem parseLine_serializeEntry (k : String) (v : YVal) :
    parseLine (serializeEntry k v) = some (k, v) := by
  rw [show serializeEntry k v = '"' :: (escape k.data ++ '"' :: ':' :: ' ' :: serializeVal v)
      from rfl, parseLine.eq_def]
  simp [parseQuoted_escape, parseAfterKey_sep, parseValChars_serializeVal, mk_data]

theorem newline_not_mem_serializeVal (v : YVal) : '\n' ∉ serializeVal v := by
  cases v with
  | s str =>
    intro hmem
    rw [show serializeVal (.s str) = '"' :: (escape str.data ++ '"' :: []) from rfl] at hmem
    rcases List.mem_cons.mp hmem with h | h
    · exact absurd h (by decide)
    · rcases List.mem_append.mp h with h' | h'
      · exact newline_not_mem_escape _ h'
      · exact absurd h' (by decide)
  | i n =>
    intro hmem
    have := natToChars_all_digit n '\n' hmem
    exact absurd this (by decide)
  | b bv => cases bv <;> decide
  | null => decide

theorem newline_not_mem_serializeEntry (k : String) (v : YVal) :
    '\n' ∉ serializeEntry k v := by
  intro hmem
  rw [show serializeEntry k v = '"' :: (escape k.data ++ '"' :: ':' :: ' ' :: serializeVal v)
      from rfl] at hmem
  rcases List.mem_cons.mp hmem with h | h
  · exact absurd h (by decide)
  · rcases List.mem_append.mp h with h' | h'
    · exact newline_not_mem_escape _ h'
    · rcases List.mem_cons.mp h' with h'' | h''
      · exact absurd h'' (by decide)
      · rcases List.mem_cons.mp h'' with h₃ | h₃
        · exact absurd h₃ (by decide)
        · rcases List.mem_cons.mp h₃ with h₄ | h₄
          · exact absurd h₄ (by decide)
          · exact newline_not_mem_serializeVal v h₄

theorem splitNl_ne_nil (cs : List Char) : splitNl cs ≠ [] := by
  induction cs with
  | nil => simp [splitNl]
  | cons c cs ih =>
    rw [splitNl]
    cases h : splitNl cs with
    | nil => simp
    | cons l ls => by_cases hc : c = '\n' <;> simp [hc]

theorem splitNl_no_newline (l : List Char) (h : '\n' ∉ l) : splitNl l = [l] := by
  induction l with
  | nil => rfl
  | cons c cs ih =>
    have hc : ¬ c = '\n' := fun hc => h (hc ▸ List.mem_cons_self _ _)
    have hcs : '\n' ∉ cs := fun hm => h (List.mem_cons_of_mem _ hm)
    rw [splitNl, ih hcs]
    simp [hc]

theorem splitNl_append (l rest : List Char) (h : '\n' ∉ l) :
    splitNl (l ++ '\n' :: rest) = l :: splitNl rest := by
  induction l with
  | nil =>
    rw [List.nil_append]
    cases hsp : splitNl rest with
    | nil => exact absurd hsp (splitNl_ne_nil rest)
    | cons l₀ ls₀ =>
      rw [splitNl, hsp]
      simp
  | cons c cs ih =>
    have hc : ¬ c = '\n' := fun hc => h (hc ▸ List.mem_cons_self _ _)
    have hcs : '\n' ∉ cs := fun hm => h (List.mem_cons_of_mem _ hm)
    rw [List.cons_append, splitNl, ih hcs]
    simp [hc]

theorem joinLines_cons_ne_nil (a : List Char) (ls : List (List Char)) (ha : a ≠ []) :
    joinLines (a :: ls) ≠ [] := by
  cases ls with
  | nil => rw [joinLines]; exact ha
  | cons b bs => rw [joinLines]; simp

theorem serializeEntry_ne_nil (k : String) (v : YVal) : serializeEntry k v ≠ [] := by
  rw [show serializeEntry k v = '"' :: (escape k.data ++ '"' :: ':' :: ' ' :: serializeVal v)
      from rfl]
  simp

theorem splitNl_joinLines (ls : List (List Char)) (hne : ls ≠ [])
    (h : ∀ l ∈ ls, '\n' ∉ l) : splitNl (joinLines ls) = ls := by
  induction ls with
  | nil => exact absurd rfl hne
  | cons l rest ih =>
    cases rest with
    | nil =>
      rw [joinLines]
      exact splitNl_no_newline l (h l (List.mem_cons_self _ _))
    | cons l₂ rest₂ =>
      rw [joinLines, splitNl_append _ _ (h l (List.mem_cons_self _ _)),
        ih (by simp) (fun x hx => h x (List.mem_cons_of_mem _ hx))]

theorem parseLinesAll_serialize (m : Store) :
    parseLinesAll (m.map fun kv => serializeEntry kv.1 kv.2) = some m := by
  induction m with
  | nil => rfl
  | cons kv rest ih =>
    rw [List.map_cons, parseLinesAll, parseLine_serializeEntry, ih]

theorem deserialize_serialize (m : Store) (hnd : (keysOf m).Nodup) :
    deserialize (serialize m) = some m := by
  cases m with
  | nil => decide
  | cons kv rest =>
    have hnl : ∀ l ∈ (kv :: rest).map (fun p => serializeEntry p.1 p.2), '\n' ∉ l := by
      intro l hl
      rcases List.mem_map.mp hl with ⟨p, hp, he⟩
      rw [← he]
      exact newline_not_mem_serializeEntry p.1 p.2
    have hser_ne : serialize (kv :: rest) ≠ [] := by
      rw [serialize, List.map_cons]
      exact joinLines_cons_ne_nil _ _ (serializeEntry_ne_nil kv.1 kv.2)
    rw [deserialize, yaml_safe_load, if_neg hser_ne, serialize,
      splitNl_joinLines _ (by simp) hnl, parseLinesAll_serialize]
    simp [buildDict_eq_self _ hnd]

theorem deserialize_nodup (cs : List Char) (m : Store) (h : deserialize cs = some m) :
    (keysOf m).Nodup := by
  rw [deserialize, yaml_safe_load] at h
  by_cases hc : cs = []
  · rw [if_pos hc] at h
    have hm : ([] : Store) = m := by simpa using h
    rw [← hm]
    simp
  · rw [if_neg hc] at h
    cases hp : parseLinesAll (splitNl cs) with
    | none =>
      rw [hp] at h
      simp at h
    | some ps =>
      rw [hp] at h
      have hm : buildDict ps = m := by simpa using h
      rw [← hm]
      exact nodup_keysOf_buildDict ps

theorem idTool_good : Tool.Good idTool := by
  constructor
  · intro p
    exact ⟨p, rfl⟩
  · intro p e h
    cases h
    rfl

theorem decrypt_secrets_store_none (tool : Tool) (pathStr : String) (fs : FS)
    (h : fs.store = none) :
    decrypt_secrets tool pathStr fs =
      .error (.secretsNotFound ("Secrets file not found: " ++ pathStr)) := by
  unfold decrypt_secrets
  rw [h]

theorem decrypt_secrets_store_some (tool : Tool) (pathStr : String) (fs : FS)
    (enc : List Char) (h : fs.store = some enc) :
    decrypt_secrets tool pathStr fs =
      match tool.decrypt enc with
      | .missing => .error .fileNotFound
      | .failed stderr => .error (.sops ("Failed to decrypt: " ++ stderr))
      | .ok stdout =>
        match yaml_safe_load stdout with
        | none => .error .yamlErr
        | some o => .ok (o.getD []) := by
  unfold decrypt_secrets
  rw [h]

theorem decrypt_secrets_eq_ok_iff (tool : Tool) (pathStr : String) (fs : FS) (m : Store) :
    decrypt_secrets tool pathStr fs = .ok m ↔
      ∃ enc stdout, fs.store = some enc ∧ tool.decrypt enc = .ok stdout ∧
        deserialize stdout = some m := by
  unfold decrypt_secrets
  cases hs : fs.store with
  | none => simp
  | some enc =>
    simp only [Option.some_inj]
    cases hd : tool.decrypt enc with
    | missing => simp [hd]
    | failed st => simp [hd]
    | ok stdout =>
      cases hy : yaml_safe_load stdout with
      | none => simp [hd, deserialize, hy]
      | some o => simp [hd, deserialize, hy]

theorem decrypt_secrets_ok_nodup (tool : Tool) (pathStr : String) (fs : FS) (m : Store)
    (h : decrypt_secrets tool pathStr fs = .ok m) : (keysOf m).Nodup := by
  rw [decrypt_secrets_eq_ok_iff] at h
  obtain ⟨enc, stdout, _, _, hdes⟩ := h
  exact deserialize_nodup stdout m hdes

theorem writeStore_ok (tool : Tool) (m : Store) (fs : FS) (enc : List Char)
    (h : tool.encrypt (serialize m) = .ok enc) :
    writeStore tool m fs = ({ fs with store := some enc, temp := none }, .ok ()) := by
  unfold writeStore
  rw [h]

theorem writeStore_shape (tool : Tool) (m : Store) (fs : FS) :
    (writeStore tool m fs).1.temp = none ∧
    ((∃ e, (writeStore tool m fs).2 = .error e) → (writeStore tool m fs).1.store = fs.store) ∧
    ((writeStore tool m fs).2 = .ok () →
      ∃ enc, tool.encrypt (serialize m) = .ok enc ∧
        (writeStore tool m fs).1.store = some enc) := by
  unfold writeStore
  cases h : tool.encrypt (serialize m) with
  | missing => simp
  | failed st => simp
  | ok enc => exact ⟨rfl, by simp, fun _ => ⟨enc, rfl, rfl⟩⟩

theorem writeStore_good (tool : Tool) (hg : Tool.Good tool) (m : Store) (fs : FS)
    (hnd : (keysOf m).Nodup) (pathStr : String) :
    ∃ enc, tool.encrypt (serialize m) = .ok enc ∧
      writeStore tool m fs = ({ fs with store := some enc, temp := none }, .ok ()) ∧
      decrypt_secrets tool pathStr { fs with store := some enc, temp := none } = .ok m := by
  obtain ⟨enc, he⟩ := hg.1 (serialize m)
  refine ⟨enc, he, writeStore_ok tool m fs enc he, ?_⟩
  rw [decrypt_secrets_eq_ok_iff]
  exact ⟨enc, serialize m, rfl, hg.2 _ _ he, deserialize_serialize m hnd⟩

theorem mask_value_four_long (v : List Char) (h : 1000 < v.length) :
    mask_value v 4 = v.take 4 ++ List.replicate 8 '*' ++ v.drop (v.length - 4) := by
  have h0 : ¬ v.length = 0 := by omega
  have h8 : ¬ v.length ≤ 4 * 2 := by omega
  have hmin : min (v.length - 4 * 2) 8 = 8 := by omega
  simp only [mask_value, pyLastSlice, h0, h8, hmin, if_false]
  simp

/-- C1: the spec's case analysis holds at its own example
(`mask("sk-1234567890abcdef", 4) = "sk-1********cdef"`, middle hidden),
but the third case is violated at `visibleChars = 0`: Python's `value[-0:]`
slice is the whole string, so `mask("abcdef", 0)` evaluates to
`"******abcdef"` — the asterisks followed by the entire secret — instead
of the claimed `first 0 chars ++ min(6,8) asterisks ++ last 0 chars`,
i.e. `"******"`.  This contradicts the function's own docstring
("showing only first and last N characters", "secrets are never fully
exposed"), so the code, not the claim, is at fault. -/
theorem c1_mask_case_analysis_failing_input :
    mask_value "sk-1234567890abcdef".data 4 = "sk-1********cdef".data ∧
    ¬ ("1234567890ab".data <:+: "sk-1********cdef".data) ∧
    mask_value "abcdef".data 0 = "******abcdef".data ∧
    ¬ mask_value "abcdef".data 0 = ("".data ++ List.replicate 6 '*' ++ "".data) := by
  decide

/-- C2: for every value of more than 1000 characters at `visibleChars = 4`,
`mask_value` returns the first four characters, exactly eight asterisks and
the last four characters; the result has length exactly 16; and any two
such values agreeing on their first and last four characters mask
identically — so the mask reveals neither the length nor any middle
byte. -/
theorem c2_long_value_mask_cap (v : List Char) (h : 1000 < v.length) :
    mask_value v 4 = v.take 4 ++ List.replicate 8 '*' ++ v.drop (v.length - 4) ∧
    (mask_value v 4).length = 16 ∧
    (∀ w : List Char, 1000 < w.length → w.take 4 = v.take 4 →
      w.drop (w.length - 4) = v.drop (v.length - 4) →
      mask_value w 4 = mask_value v 4) := by
  refine ⟨mask_value_four_long v h, ?_, ?_⟩
  · rw [mask_value_four_long v h]
    simp only [List.length_append, List.length_take, List.length_drop,
      List.length_replicate]
    omega
  · intro w hw ht hd
    rw [mask_value_four_long w hw, mask_value_four_long v h, ht, hd]

/-- Witness for C2 at two concrete long values. -/
theorem c2_long_value_mask_cap_witness :
    1000 < (List.replicate 1001 'a').length ∧
    (mask_value (List.replicate 1001 'a') 4).length = 16 ∧
    mask_value (List.replicate 1500 'a') 4 = mask_value (List.replicate 1001 'a') 4 := by
  have h1 : 1000 < (List.replicate 1001 'a').length := by
    rw [List.length_replicate]
    omega
  have h2 : 1000 < (List.replicate 1500 'a').length := by
    rw [List.length_replicate]
    omega
  have h := c2_long_value_mask_cap (List.replicate 1001 'a') h1
  refine ⟨h1, h.2.1, h.2.2 _ h2 ?_ ?_⟩
  · rw [List.take_replicate, List.take_replicate]
    congr 1
  · rw [List.length_replicate, List.length_replicate, List.drop_replicate,
      List.drop_replicate]

theorem atomicOk_writeStore (tool : Tool) (m : Store) (fs : FS) :
    AtomicOk tool fs (writeStore tool m fs) := by
  obtain ⟨h1, h2, h3⟩ := writeStore_shape tool m fs
  refine ⟨h1, h2, fun hok => ?_⟩
  obtain ⟨enc, he, hs⟩ := h3 hok
  exact ⟨enc, serialize m, he, hs⟩

theorem atomicOk_error (tool : Tool) (fs : FS) (e : PyErr) (h : fs.temp = none) :
    AtomicOk tool fs (fs, .error e) :=
  ⟨h, fun _ => rfl, fun hok => absurd hok (by simp)⟩

/-- C3: every mutating operation (`set_secret`, `delete_secret`,
`init_secrets_file`) is atomic: on any failure the encrypted store file
still holds exactly its prior content (or is still absent), on success the
new encrypted content replaces it wholesale via the single rename of the
temporary sibling, and on every exit path no temporary sibling file
remains (given that none was lying around before the call). -/
theorem c3_atomic_write (tool : Tool) (pathStr key value : String)
    (recip : Option String) (akf : Bool) (akg : ToolOutcome String) (fs : FS)
    (h : fs.temp = none) :
    AtomicOk tool fs (set_secret tool pathStr key value fs) ∧
    AtomicOk tool fs (delete_secret tool pathStr key fs) ∧
    AtomicOk tool fs (init_secrets_file tool akf akg pathStr recip fs) := by
  refine ⟨?_, ?_, ?_⟩
  · unfold set_secret
    split
    · split
      · exact atomicOk_error tool fs _ h
      · exact atomicOk_writeStore tool _ fs
    · exact atomicOk_writeStore tool _ fs
  · unfold delete_secret
    split
    · exact atomicOk_error tool fs _ h
    · split
      · exact atomicOk_error tool fs _ h
      · split
        · exact atomicOk_error tool fs _ h
        · exact atomicOk_writeStore tool _ fs
  · unfold init_secrets_file
    split
    · exact atomicOk_error tool fs _ h
    · split
      · exact atomicOk_error tool fs _ h
      · split
        · split
          · refine ⟨rfl, fun _ => ?_, fun hok => absurd hok (by simp)⟩
            by_cases hcfg : fs.sopsConfig.isSome = true <;> simp [hcfg]
          · refine ⟨rfl, fun _ => ?_, fun hok => absurd hok (by simp)⟩
            by_cases hcfg : fs.sopsConfig.isSome = true <;> simp [hcfg]
          · rename_i enc he
            refine ⟨rfl, fun he' => ?_, fun _ => ⟨enc, serialize initialContent, he, rfl⟩⟩
            obtain ⟨e, he''⟩ := he'
            exact absurd he'' (by simp)
        · exact atomicOk_error tool fs _ h

/-- Witness for C3: a fresh `set`, a `delete` from an existing store, and
an `init` with a supplied recipient all leave no temporary file behind. -/
theorem c3_atomic_write_witness :
    (set_secret idTool "p" "k" "v" fsEmpty).1.temp = none ∧
    (delete_secret idTool "p" "k" fsKV).1.temp = none ∧
    (init_secrets_file idTool false (.failed "x") "p" (some "age1") fsEmpty).1.temp = none := by
  have h1 := c3_atomic_write idTool "p" "k" "v" (some "age1") false (.failed "x") fsEmpty rfl
  have h2 := c3_atomic_write idTool "p" "k" "v" (some "age1") false (.failed "x") fsKV rfl
  exact ⟨h1.1.1, h2.2.1.1, h1.2.2.1⟩

/-- C4 counterexample: with the store file present and the `sops` binary
missing, `decrypt_secrets` propagates Python's untyped `FileNotFoundError`
(raised by `subprocess.run`), which is not a `SecretsError` — the CLI
boundary catches only `SecretsError`, so the process crashes instead of
receiving the claimed typed `ToolNotAvailable` failure. -/
theorem c4_missing_tool_untyped_counterexample :
    decrypt_secrets missingTool "p" fsKV = .error .fileNotFound ∧
    isSecretsError .fileNotFound = false := ⟨rfl, rfl⟩

/-- C4 amended: `decrypt_secrets` fails with `SecretsNotFoundError` exactly
when no file exists at the path; when the tool runs but exits non-zero it
fails with `SOPSError` carrying the tool's stderr; but when the decryption
executable is missing the untyped `FileNotFoundError` propagates — it is
not a `SecretsError`, so it is not surfaced as a typed failure. -/
theorem c4_decrypt_error_contract (tool : Tool) (pathStr : String) (fs : FS) :
    (decrypt_secrets tool pathStr fs =
        .error (.secretsNotFound ("Secrets file not found: " ++ pathStr)) ↔
      fs.store = none) ∧
    (∀ enc st, fs.store = some enc → tool.decrypt enc = .failed st →
      decrypt_secrets tool pathStr fs = .error (.sops ("Failed to decrypt: " ++ st))) ∧
    (∀ enc, fs.store = some enc → tool.decrypt enc = .missing →
      decrypt_secrets tool pathStr fs = .error .fileNotFound ∧
        isSecretsError .fileNotFound = false) := by
  refine ⟨⟨?_, ?_⟩, ?_, ?_⟩
  · intro hcontra
    cases hs : fs.store with
    | none => rfl
    | some enc =>
      exfalso
      rw [decrypt_secrets_store_some tool pathStr fs enc hs] at hcontra
      cases hd : tool.decrypt enc with
      | missing => simp [hd] at hcontra
      | failed st => simp [hd] at hcontra
      | ok stdout =>
        rw [hd] at hcontra
        cases hy : yaml_safe_load stdout with
        | none => simp [hy] at hcontra
        | some o => simp [hy] at hcontra
  · intro hs
    rw [decrypt_secrets_store_none tool pathStr fs hs]
  · intro enc st hse hd
    rw [decrypt_secrets_store_some tool pathStr fs enc hse, hd]
  · intro enc hse hd
    rw [decrypt_secrets_store_some tool pathStr fs enc hse, hd]
    exact ⟨rfl, rfl⟩

/-- Witness for C4's amended contract at concrete tools and stores. -/
theorem c4_decrypt_error_contract_witness :
    decrypt_secrets missingTool "p" fsEmpty =
      .error (.secretsNotFound ("Secrets file not found: " ++ "p")) ∧
    decrypt_secrets failTool "p" fsKV =
      .error (.sops ("Failed to decrypt: " ++ "boom")) := by
  refine ⟨(c4_decrypt_error_contract missingTool "p" fsEmpty).1.mpr rfl, ?_⟩
  exact (c4_decrypt_error_contract failTool "p" fsKV).2.1
    (serialize [("k", .s "v"), ("x", .s "y")]) "boom" rfl rfl

/-- C5 (codec modelled from the spec, since the YAML library is not part of
the repository's sources): `deserialize (serialize m) = m` for every
mapping of string keys to string values including the empty one;
deserializing empty decrypted content yields the empty mapping, never an
error; and `writeAll` (the temp-write/encrypt/rename tail) followed by
`readAll` (`decrypt_secrets`) on the same path returns the just-written
mapping byte-for-byte. -/
theorem c5_codec_roundtrip :
    (∀ ms : List (String × String), (keysOf ms).Nodup →
      deserialize (serialize (ms.map fun kv => (kv.1, YVal.s kv.2))) =
        some (ms.map fun kv => (kv.1, YVal.s kv.2))) ∧
    deserialize [] = some ([] : Store) ∧
    (∀ (tool : Tool) (pathStr : String) (fs : FS) (m : Store), Tool.Good tool →
      (keysOf m).Nodup →
      ∃ fs', writeStore tool m fs = (fs', .ok ()) ∧
        decrypt_secrets tool pathStr fs' = .ok m) := by
  refine ⟨?_, by decide, ?_⟩
  · intro ms hnd
    apply deserialize_serialize
    have hk : keysOf (ms.map fun kv => (kv.1, YVal.s kv.2)) = keysOf ms := by
      simp [keysOf, List.map_map, Function.comp]
    rw [hk]
    exact hnd
  · intro tool pathStr fs m hg hnd
    obtain ⟨enc, _, hw, hd⟩ := writeStore_good tool hg m fs hnd pathStr
    exact ⟨_, hw, hd⟩

/-- Witness for C5 at a concrete mapping and a concrete write/read. -/
theorem c5_codec_roundtrip_witness :
    deserialize (serialize [("a", YVal.s "1")]) = some [("a", YVal.s "1")] ∧
    ∃ fs', writeStore idTool [("k", YVal.s "v")] fsEmpty = (fs', .ok ()) ∧
      decrypt_secrets idTool "p" fs' = .ok [("k", YVal.s "v")] := by
  refine ⟨?_, c5_codec_roundtrip.2.2 idTool "p" fsEmpty [("k", .s "v")]
    idTool_good (by decide)⟩
  have h1 := c5_codec_roundtrip.1 [("a", "1")] (by decide)
  simpa using h1

/-- C6: with a functioning tool, `set_secret` succeeds whether the store
exists (read-modify-write from its decrypted mapping `m`) or is absent
(starting from the empty mapping), silently overwriting any prior binding
of the key; afterwards `get_secret` on the key returns exactly the written
value, and every other key still maps to its prior value unchanged. -/
theorem c6_set_then_get (tool : Tool) (pathStr key value : String) (fs : FS) (m : Store)
    (hg : Tool.Good tool) (hm : ReadState tool pathStr fs m) :
    (set_secret tool pathStr key value fs).2 = .ok () ∧
    decrypt_secrets tool pathStr (set_secret tool pathStr key value fs).1 =
      .ok (setKey m key (.s value)) ∧
    get_secret tool pathStr key (set_secret tool pathStr key value fs).1 = .ok value ∧
    (∀ k', k' ≠ key → lookupKey (setKey m key (.s value)) k' = lookupKey m k') := by
  have hnd : (keysOf m).Nodup := by
    rcases hm with ⟨_, hm2⟩ | ⟨_, hm2⟩
    · rw [hm2]
      simp
    · exact decrypt_secrets_ok_nodup tool pathStr fs m hm2
  obtain ⟨enc, he, hw, hd⟩ :=
    writeStore_good tool hg (setKey m key (.s value)) fs
      (nodup_keysOf_setKey m key (.s value) hnd) pathStr
  have hset : set_secret tool pathStr key value fs =
      ({ fs with store := some enc, temp := none }, .ok ()) := by
    unfold set_secret
    rcases hm with ⟨hs, hm2⟩ | ⟨hs, hm2⟩
    · rw [hs, ← hm2] at *
      exact hw
    · obtain ⟨enc₀, hs₀⟩ := Option.isSome_iff_exists.mp hs
      rw [hs₀, hm2]
      exact hw
  refine ⟨by rw [hset], by rw [hset]; exact hd, ?_, ?_⟩
  · unfold get_secret
    rw [hset, hd]
    simp [lookupKey_setKey_self, YVal.str]
  · intro k' hk'
    exact lookupKey_setKey_other m key k' (.s value) hk'

/-- Witness for C6: setting a key in a fresh store and reading it back. -/
theorem c6_set_then_get_witness :
    (set_secret idTool "p" "k" "v" fsEmpty).2 = .ok () ∧
    get_secret idTool "p" "k" (set_secret idTool "p" "k" "v" fsEmpty).1 = .ok "v" := by
  have h := c6_set_then_get idTool "p" "k" "v" fsEmpty [] idTool_good (Or.inl ⟨rfl, rfl⟩)
  exact ⟨h.1, h.2.2.1⟩

theorem delete_secret_store_none (tool : Tool) (pathStr key : String) (fs : FS)
    (h : fs.store = none) :
    delete_secret tool pathStr key fs =
      (fs, .error (.secretsNotFound ("Secrets file not found: " ++ pathStr))) := by
  unfold delete_secret
  rw [h]

theorem delete_secret_key_absent (tool : Tool) (pathStr key : String) (fs : FS)
    (m : Store) (enc : List Char) (hs : fs.store = some enc)
    (hd : decrypt_secrets tool pathStr fs = .ok m) (hk : lookupKey m key = none) :
    delete_secret tool pathStr key fs =
      (fs, .error (.keyNotFound ("Key not found: " ++ key))) := by
  unfold delete_secret
  rw [hs, hd]
  simp [hk]

theorem delete_secret_key_present (tool : Tool) (pathStr key : String) (fs : FS)
    (m : Store) (enc : List Char) (v : YVal) (hs : fs.store = some enc)
    (hd : decrypt_secrets tool pathStr fs = .ok m) (hk : lookupKey m key = some v) :
    delete_secret tool pathStr key fs = writeStore tool (delKey m key) fs := by
  unfold delete_secret
  rw [hs, hd]
  simp [hk]

theorem get_secret_eq_of_decrypt (tool : Tool) (pathStr key : String) (fs : FS)
    (m : Store) (hd : decrypt_secrets tool pathStr fs = .ok m) :
    get_secret tool pathStr key fs =
      match lookupKey m key with
      | none => .error (.keyNotFound ("Key not found: " ++ key))
      | some v => .ok v.str := by
  unfold get_secret
  rw [hd]

theorem list_keys_eq_of_decrypt (tool : Tool) (pathStr : String) (fs : FS)
    (m : Store) (hd : decrypt_secrets tool pathStr fs = .ok m) :
    list_keys tool pathStr fs = .ok (List.insertionSort (· ≤ ·) (keysOf m)) := by
  unfold list_keys
  rw [hd]

/-- C7: `delete_secret` fails with `SecretsNotFoundError` when the file is
absent and with `KeyNotFoundError` exactly when the key is absent from the
decrypted mapping; on success it removes exactly that key: a subsequent
`get_secret` on the key fails with `KeyNotFoundError`, `list_keys` omits
the key and returns all remaining keys in sorted order, and the store file
still exists on disk — `delete` never removes the file. -/
theorem c7_delete_contract (tool : Tool) (pathStr key : String) (fs : FS) (m : Store)
    (hg : Tool.Good tool) :
    (fs.store = none →
      (delete_secret tool pathStr key fs).2 =
        .error (.secretsNotFound ("Secrets file not found: " ++ pathStr))) ∧
    (∀ enc, fs.store = some enc → decrypt_secrets tool pathStr fs = .ok m →
      ((delete_secret tool pathStr key fs).2 =
          .error (.keyNotFound ("Key not found: " ++ key)) ↔ lookupKey m key = none)) ∧
    (∀ enc, fs.store = some enc → decrypt_secrets tool pathStr fs = .ok m →
      (lookupKey m key).isSome = true →
      (delete_secret tool pathStr key fs).2 = .ok () ∧
      (delete_secret tool pathStr key fs).1.store ≠ none ∧
      get_secret tool pathStr key (delete_secret tool pathStr key fs).1 =
        .error (.keyNotFound ("Key not found: " ++ key)) ∧
      ∃ L, list_keys tool pathStr (delete_secret tool pathStr key fs).1 = .ok L ∧
        List.Sorted (· ≤ ·) L ∧ key ∉ L ∧
        (∀ k', k' ∈ L ↔ (k' ∈ keysOf m ∧ k' ≠ key))) := by
  refine ⟨?_, ?_, ?_⟩
  · intro hs
    rw [delete_secret_store_none tool pathStr key fs hs]
  · intro enc hs hd
    cases hk : lookupKey m key with
    | none =>
      rw [delete_secret_key_absent tool pathStr key fs m enc hs hd hk]
      simp
    | some v =>
      rw [delete_secret_key_present tool pathStr key fs m enc v hs hd hk]
      obtain ⟨enc', he'⟩ := hg.1 (serialize (delKey m key))
      rw [writeStore_ok tool (delKey m key) fs enc' he']
      simp
  · intro enc hs hd hk
    obtain ⟨v, hv⟩ := Option.isSome_iff_exists.mp hk
    have hnd := decrypt_secrets_ok_nodup tool pathStr fs m hd
    obtain ⟨enc', he', hw', hd'⟩ :=
      writeStore_good tool hg (delKey m key) fs (nodup_keysOf_delKey m key hnd) pathStr
    have hdel : delete_secret tool pathStr key fs =
        ({ fs with store := some enc', temp := none }, .ok ()) := by
      rw [delete_secret_key_present tool pathStr key fs m enc v hs hd hv]
      exact hw'
    refine ⟨by rw [hdel], by rw [hdel]; simp, ?_, ?_⟩
    · unfold get_secret
      rw [hdel, hd']
      simp [lookupKey_delKey_self m key hnd]
    · refine ⟨List.insertionSort (· ≤ ·) (keysOf (delKey m key)), ?_, ?_, ?_, ?_⟩
      · unfold list_keys
        rw [hdel, hd']
      · exact List.sorted_insertionSort _ _
      · intro hmem
        rw [(List.perm_insertionSort _ _).mem_iff, keysOf_delKey] at hmem
        exact (hnd.mem_erase_iff.mp hmem).1 rfl
      · intro k'
        rw [(List.perm_insertionSort _ _).mem_iff, keysOf_delKey, hnd.mem_erase_iff]
        constructor
        · rintro ⟨hne, hm⟩
          exact ⟨hm, hne⟩
        · rintro ⟨hm, hne⟩
          exact ⟨hne, hm⟩

/-- Witness for C7: deleting `"k"` from the two-key store, then reading
and listing. -/
theorem c7_delete_contract_witness :
    (delete_secret idTool "p" "k" fsKV).2 = .ok () ∧
    (delete_secret idTool "p" "k" fsKV).1.store ≠ none ∧
    get_secret idTool "p" "k" (delete_secret idTool "p" "k" fsKV).1 =
      .error (.keyNotFound ("Key not found: " ++ "k")) ∧
    ∃ L, list_keys idTool "p" (delete_secret idTool "p" "k" fsKV).1 = .ok L ∧
      List.Sorted (· ≤ ·) L ∧ "k" ∉ L := by
  have h := (c7_delete_contract idTool "p" "k" fsKV [("k", .s "v"), ("x", .s "y")]
    idTool_good).2.2 (serialize [("k", .s "v"), ("x", .s "y")]) rfl rfl rfl
  obtain ⟨h1, h2, h3, L, hL, hsort, hmem, _⟩ := h
  exact ⟨h1, h2, h3, L, hL, hsort, hmem⟩

theorem init_store_some (tool : Tool) (akf : Bool) (akg : ToolOutcome String)
    (pathStr : String) (recip : Option String) (fs : FS) (enc : List Char)
    (h : fs.store = some enc) :
    init_secrets_file tool akf akg pathStr recip fs =
      (fs, .error (.secrets ("Secrets file already exists: " ++ pathStr))) := by
  unfold init_secrets_file
  rw [h]

theorem init_no_recipient (tool : Tool) (akf : Bool) (akg : ToolOutcome String)
    (pathStr : String) (recip : Option String) (fs : FS) (ar : Option String)
    (h : fs.store = none) (hd : deriveStep recip akf akg = .ok ar)
    (htr : pyTruthy ar = false) :
    init_secrets_file tool akf akg pathStr recip fs =
      (fs, .error (.secrets noRecipientMsg)) := by
  unfold init_secrets_file
  rw [h, hd]
  simp [htr]

theorem init_success_eq (tool : Tool) (akf : Bool) (akg : ToolOutcome String)
    (pathStr : String) (recip : Option String) (fs : FS) (ar : Option String)
    (enc : List Char) (h : fs.store = none) (hd : deriveStep recip akf akg = .ok ar)
    (htr : pyTruthy ar = true) (he : tool.encrypt (serialize initialContent) = .ok enc) :
    init_secrets_file tool akf akg pathStr recip fs =
      ({ fs with
          store := some enc
          temp := none
          sopsConfig := (if fs.sopsConfig.isSome then fs.sopsConfig
            else some (sopsConfigText (ar.getD ""))) }, .ok ()) := by
  unfold init_secrets_file
  rw [h, hd]
  by_cases hcfg : fs.sopsConfig.isSome = true <;> simp [htr, hcfg, he]

/-- C8: `init_secrets_file` fails with the already-exists `SecretsError`
when a file is present at the path; when no truthy recipient is supplied
and the derivation attempt yields none (key file absent, `age-keygen`
non-zero, or empty stripped output) it fails with the no-recipient
`SecretsError`; and on success the store file exists and its decrypted
mapping is exactly the one placeholder entry `"_example"`, whose key
carries the reserved `'_'` prefix. -/
theorem c8_init_contract (tool : Tool) (akf : Bool) (akg : ToolOutcome String)
    (pathStr : String) (recip : Option String) (fs : FS) :
    (∀ enc, fs.store = some enc →
      init_secrets_file tool akf akg pathStr recip fs =
        (fs, .error (.secrets ("Secrets file already exists: " ++ pathStr)))) ∧
    (∀ ar, fs.store = none → deriveStep recip akf akg = .ok ar → pyTruthy ar = false →
      (init_secrets_file tool akf akg pathStr recip fs).2 =
        .error (.secrets noRecipientMsg)) ∧
    (pyTruthy recip = false →
      (akf = false ∨ (∃ st, akg = .failed st) ∨ (∃ out, akg = .ok out ∧ out.trim = "")) →
      ∃ ar, deriveStep recip akf akg = .ok ar ∧ pyTruthy ar = false) ∧
    (∀ ar, fs.store = none → Tool.Good tool →
      deriveStep recip akf akg = .ok ar → pyTruthy ar = true →
      (init_secrets_file tool akf akg pathStr recip fs).2 = .ok () ∧
      (init_secrets_file tool akf akg pathStr recip fs).1.store ≠ none ∧
      decrypt_secrets tool pathStr (init_secrets_file tool akf akg pathStr recip fs).1 =
        .ok initialContent ∧
      keysOf initialContent = ["_example"] ∧
      "_example".data.head? = some '_') := by
  refine ⟨?_, ?_, ?_, ?_⟩
  · intro enc hs
    exact init_store_some tool akf akg pathStr recip fs enc hs
  · intro ar hs hd htr
    rw [init_no_recipient tool akf akg pathStr recip fs ar hs hd htr]
  · intro hrec hcase
    by_cases hakf : akf = true
    · rcases hcase with h1 | ⟨st, h2⟩ | ⟨out, h3, h4⟩
      · rw [h1] at hakf
        exact absurd hakf (by decide)
      · subst h2
        exact ⟨recip, by simp [deriveStep, hrec, hakf], hrec⟩
      · subst h3
        refine ⟨some out.trim, by simp [deriveStep, hrec, hakf], ?_⟩
        simp [pyTruthy, h4]
    · exact ⟨recip, by simp [deriveStep, hrec, hakf], hrec⟩
  · intro ar hs hg hd htr
    obtain ⟨enc, he⟩ := hg.1 (serialize initialContent)
    have hini := init_success_eq tool akf akg pathStr recip fs ar enc hs hd htr he
    have hdec : decrypt_secrets tool pathStr
        ({ fs with
          store := some enc
          temp := none
          sopsConfig := (if fs.sopsConfig.isSome then fs.sopsConfig
            else some (sopsConfigText (ar.getD ""))) } : FS) = .ok initialContent := by
      rw [decrypt_secrets_eq_ok_iff]
      exact ⟨enc, serialize initialContent, rfl, hg.2 _ _ he,
        deserialize_serialize initialContent (by decide)⟩
    refine ⟨by rw [hini], by rw [hini]; simp, by rw [hini]; exact hdec, by decide, by decide⟩

/-- Witness for C8: already-exists, no-recipient, and a successful init
with a supplied recipient. -/
theorem c8_init_contract_witness :
    init_secrets_file idTool false (.failed "x") "p" none fsKV =
      (fsKV, .error (.secrets ("Secrets file already exists: " ++ "p"))) ∧
    (init_secrets_file idTool false (.failed "x") "p" none fsEmpty).2 =
      .error (.secrets noRecipientMsg) ∧
    (init_secrets_file idTool false (.failed "x") "p" (some "age1") fsEmpty).2 = .ok () ∧
    decrypt_secrets idTool "p"
      (init_secrets_file idTool false (.failed "x") "p" (some "age1") fsEmpty).1 =
        .ok initialContent := by
  have h1 := (c8_init_contract idTool false (.failed "x") "p" none fsKV).1
    (serialize [("k", .s "v"), ("x", .s "y")]) rfl
  have h2 := (c8_init_contract idTool false (.failed "x") "p" none fsEmpty).2.1
    none rfl rfl rfl
  have h4 := (c8_init_contract idTool false (.failed "x") "p" (some "age1") fsEmpty).2.2.2
    (some "age1") rfl idTool_good rfl rfl
  exact ⟨h1, h2, h4.1, h4.2.2.1⟩

theorem injectLoop_bad (tool : Tool) (pathStr : String) (fs : FS) :
    ∀ (bs : List String) (env : List (String × String)),
      (∃ b ∈ bs, splitEq b = none ∨
        ∃ ev sk, splitEq b = some (ev, sk) ∧
          ∃ e, get_secret tool pathStr sk fs = .error e) →
      injectLoop tool pathStr fs bs env = .badFormat ∨
      ∃ e, injectLoop tool pathStr fs bs env = .raised e := by
  intro bs
  induction bs with
  | nil =>
    intro env h
    obtain ⟨b, hb, _⟩ := h
    exact absurd hb (List.not_mem_nil b)
  | cons b bs ih =>
    intro env h
    obtain ⟨b', hb', hbad⟩ := h
    rw [injectLoop]
    cases hsp : splitEq b with
    | none => simp [hsp]
    | some p =>
      obtain ⟨ev, sk⟩ := p
      cases hga : get_secret tool pathStr sk fs with
      | error e =>
        refine Or.inr ⟨e, ?_⟩
        simp [hsp, hga]
      | ok v =>
        rcases List.mem_cons.mp hb' with hb1 | hb2
        · subst hb1
          rcases hbad with hnone | ⟨ev', sk', hsp', e, hge⟩
          · rw [hsp] at hnone
            exact absurd hnone (by simp)
          · rw [hsp] at hsp'
            have hpair : (ev, sk) = (ev', sk') := by
              injection hsp'
            have hsk : sk' = sk := (congrArg Prod.snd hpair).symm
            rw [hsk, hga] at hge
            exact absurd hge (by simp)
        · have hrec := ih (setKey env ev v) ⟨b', hb2, hbad⟩
          simpa [hsp, hga] using hrec

theorem injectLoop_all_good (tool : Tool) (pathStr : String) (fs : FS) :
    ∀ (bs : List String) (env : List (String × String)),
      (∀ b ∈ bs, ∃ ev sk v, splitEq b = some (ev, sk) ∧
        get_secret tool pathStr sk fs = .ok v) →
      ∃ env', injectLoop tool pathStr fs bs env = .done env' := by
  intro bs
  induction bs with
  | nil =>
    intro env _
    exact ⟨env, rfl⟩
  | cons b bs ih =>
    intro env hall
    obtain ⟨ev, sk, v, hsp, hg⟩ := hall b (List.mem_cons_self _ _)
    rw [injectLoop]
    simp only [hsp, hg]
    exact ih (setKey env ev v) (fun b' hb' => hall b' (List.mem_cons_of_mem _ hb'))

/-- C9: if any binding lacks the `=` separator or any secret-key lookup
fails, `cmd_exec` fails (returns 1, or lets the untyped exception
propagate) before the target command is spawned; otherwise the command is
spawned with the copy of the parent environment built by the inject loop,
its exit code is returned unchanged, and `os.environ` of the parent is
never mutated. -/
theorem c9_exec_contract (tool : Tool) (pathStr : String) (fs : FS)
    (runner : List String → List (String × String) → Int)
    (parentEnv : List (String × String)) (inject exec_command : List String) :
    ((∃ b ∈ inject, BadBinding tool pathStr fs b) →
      (cmd_exec tool pathStr fs runner parentEnv inject exec_command).spawned = none ∧
      ((cmd_exec tool pathStr fs runner parentEnv inject exec_command).result =
          .exited 1 ∨
        ∃ e, (cmd_exec tool pathStr fs runner parentEnv inject exec_command).result =
          .crashed e)) ∧
    (stripSep exec_command ≠ [] →
      (∀ b ∈ inject, ∃ ev sk v, splitEq b = some (ev, sk) ∧
        get_secret tool pathStr sk fs = .ok v) →
      ∃ env', injectLoop tool pathStr fs inject parentEnv = .done env' ∧
        (cmd_exec tool pathStr fs runner parentEnv inject exec_command).spawned =
          some (stripSep exec_command, env') ∧
        (cmd_exec tool pathStr fs runner parentEnv inject exec_command).result =
          .exited (runner (stripSep exec_command) env')) ∧
    (cmd_exec tool pathStr fs runner parentEnv inject exec_command).parentEnv =
      parentEnv := by
  refine ⟨?_, ?_, ?_⟩
  · intro hbad
    unfold cmd_exec
    by_cases hc : stripSep exec_command = []
    · simp [hc]
    · rcases injectLoop_bad tool pathStr fs inject parentEnv hbad with hl | ⟨e, hl⟩
      · simp [hc, hl]
      · by_cases hse : isSecretsError e = true
        · simp [hc, hl, hse]
        · refine ⟨by simp [hc, hl, hse], Or.inr ⟨e, by simp [hc, hl, hse]⟩⟩
  · intro hc hall
    obtain ⟨env', hl⟩ := injectLoop_all_good tool pathStr fs inject parentEnv hall
    refine ⟨env', hl, ?_, ?_⟩ <;> unfold cmd_exec <;> simp [hc, hl]
  · unfold cmd_exec
    by_cases hc : stripSep exec_command = []
    · simp [hc]
    · cases hl : injectLoop tool pathStr fs inject parentEnv with
      | done env' => simp [hc, hl]
      | badFormat => simp [hc, hl]
      | raised e => by_cases hse : isSecretsError e = true <;> simp [hc, hl, hse]

/-- Witness for C9: a malformed binding blocks the spawn; a resolvable
binding lets the command run and its exit code pass through. -/
theorem c9_exec_contract_witness :
    (cmd_exec idTool "p" fsEmpty (fun _ _ => 7) [] ["NOEQ"] ["--", "run"]).spawned =
      none ∧
    (cmd_exec idTool "p" fsKV (fun _ _ => 7) [] ["A=k"] ["--", "run"]).result =
      .exited 7 := by
  have h1 := (c9_exec_contract idTool "p" fsEmpty (fun _ _ => 7) [] ["NOEQ"]
    ["--", "run"]).1 ⟨"NOEQ", by simp, Or.inl rfl⟩
  have hall : ∀ b ∈ ["A=k"], ∃ ev sk v, splitEq b = some (ev, sk) ∧
      get_secret idTool "p" sk fsKV = .ok v := by
    intro b hb
    have hb' : b = "A=k" := by simpa using hb
    subst hb'
    exact ⟨"A", "k", YVal.str (.s "v"), rfl, rfl⟩
  obtain ⟨env', _, _, hres⟩ := (c9_exec_contract idTool "p" fsKV (fun _ _ => 7) []
    ["A=k"] ["--", "run"]).2.1 (by simp [stripSep]) hall
  exact ⟨h1.1, hres⟩

/-- C10: `get_secret` applies Python `str` to whatever scalar is stored
under the key — when the stored value deserializes as a non-string scalar
(an unquoted number, boolean or null written to the plaintext by another
tool), the result is its string representation, never the raw scalar and
never an error. -/
theorem c10_get_str_of_scalar (tool : Tool) (pathStr key : String) (fs : FS)
    (m : Store) (yv : YVal) (hd : decrypt_secrets tool pathStr fs = .ok m)
    (hk : lookupKey m key = some yv) :
    get_secret tool pathStr key fs = .ok yv.str := by
  unfold get_secret
  rw [hd]
  simp [hk]

/-- Witness for C10: stores holding the non-string scalars `42`, `true`
and `null`, read back as `"42"`, `"True"` and `"None"`. -/
theorem c10_get_str_of_scalar_witness :
    get_secret idTool "p" "k" fsNum = .ok "42" ∧
    get_secret idTool "p" "k" ⟨some (serialize [("k", .b true)]), none, none⟩ =
      .ok "True" ∧
    get_secret idTool "p" "k" ⟨some (serialize [("k", .null)]), none, none⟩ =
      .ok "None" :=
  ⟨c10_get_str_of_scalar idTool "p" "k" fsNum [("k", .i 42)] (.i 42) rfl rfl,
    c10_get_str_of_scalar idTool "p" "k" _ [("k", .b true)] (.b true) rfl rfl,
    c10_get_str_of_scalar idTool "p" "k" _ [("k", .null)] .null rfl rfl⟩

end LlmSecrets
